import Mathlib

/-!
Verification development for the BLE UART sensor hook
(`src/hooks/useBluetoothUART.js`, the variant imported by `src/App.js`;
`src/unnamed/part_001` is an earlier revision of the same hook and is noted
where its behaviour diverges).

Strings are embedded as `List Char`; JavaScript numbers as `Option ℚ`
(`none` models `NaN`; the protocol lines carry signed decimal notation, the
only numeric forms this model gives a value to — everything else `Number`
would map to `NaN` or to an exotic value is mapped to `none`).  Host
timestamps (`Date.now()`, `receivedAt`) are `ℤ` milliseconds.
-/

namespace CarotUART

abbrev Str := List Char

/-- A JavaScript number: `none` stands for `NaN`. -/
abbrev JsNum := Option ℚ

/-- Whitespace for `String.prototype.trim` (the forms that occur on this link). -/
def wsChar (c : Char) : Bool := c = ' ' || c = '\t' || c = '\n' || c = '\r'

/-- JS `s.trim()`: drop whitespace from both ends. -/
def trimStr (s : Str) : Str :=
  ((s.dropWhile wsChar).reverse.dropWhile wsChar).reverse

def isDigitC (c : Char) : Bool := '0' ≤ c && c ≤ '9'

/-- JS `s.split(sep)` for a one-character separator: `"".split(',') = [""]`,
separators at the ends produce empty fields. -/
def splitOnC (d : Char) : Str → List Str
  | [] => [[]]
  | c :: cs =>
    if c = d then [] :: splitOnC d cs
    else
      match splitOnC d cs with
      | h :: t => (c :: h) :: t
      | [] => [[c]]

theorem splitOnC_ne_nil (d : Char) (s : Str) : splitOnC d s ≠ [] := by
  cases s with
  | nil => simp [splitOnC]
  | cons c cs =>
    simp only [splitOnC]
    split
    · simp
    · split <;> simp_all

def digitVal (c : Char) : ℕ := c.toNat - '0'.toNat

def natOfDigits (s : Str) : ℕ := s.foldl (fun a c => 10 * a + digitVal c) 0

/-- Rational addition written through `mkRat` so that the kernel can
evaluate it on closed inputs (`Rat.add` is `@[irreducible]`);
`qAdd_eq_add` shows it is the field addition of `ℚ`. -/
def qAdd (a b : ℚ) : ℚ := mkRat (a.num * b.den + b.num * a.den) (a.den * b.den)

/-- Division of a rational by a natural number, written through `mkRat`
for the same reason; `qDivN_eq_div` shows it is the field division. -/
def qDivN (a : ℚ) (n : ℕ) : ℚ := mkRat a.num (a.den * n)

theorem qAdd_eq_add (a b : ℚ) : qAdd a b = a + b := by
  unfold qAdd
  rw [Rat.mkRat_eq_div]
  conv_rhs => rw [← Rat.num_div_den a, ← Rat.num_div_den b]
  have ha : (a.den : ℚ) ≠ 0 := Nat.cast_ne_zero.mpr a.den_nz
  have hb : (b.den : ℚ) ≠ 0 := Nat.cast_ne_zero.mpr b.den_nz
  push_cast
  field_simp

theorem qDivN_eq_div (a : ℚ) (n : ℕ) : qDivN a n = a / n := by
  unfold qDivN
  rw [Rat.mkRat_eq_div]
  push_cast
  rw [div_mul_eq_div_div, Rat.num_div_den]

/-- JS `Number(s)` restricted to the decimal forms this link carries:
optional sign, integer part, optional fraction (the value of
`ip.fp` is `natOfDigits (ip ++ fp) / 10 ^ |fp|`).  `Number("") = 0`
(after trimming); any string outside this shape is `NaN` (`none`).
Exotic `Number` inputs (hex, exponent, `"Infinity"`) do not occur on
this link and are also mapped to `none`. -/
def jsNumber (s : Str) : JsNum :=
  let t := trimStr s
  if t = [] then some 0
  else
    let (neg, u) : Bool × Str :=
      match t with
      | '-' :: r => (true, r)
      | '+' :: r => (false, r)
      | _ => (false, t)
    let ip := u.takeWhile isDigitC
    let rest := u.dropWhile isDigitC
    let sgn : ℚ → ℚ := fun q => if neg then -q else q
    match rest with
    | [] => if ip = [] then none else some (sgn (natOfDigits ip))
    | '.' :: fr =>
      let fp := fr.takeWhile isDigitC
      let rest2 := fr.dropWhile isDigitC
      if rest2 ≠ [] then none
      else if ip = [] ∧ fp = [] then none
      else some (sgn (mkRat (natOfDigits (ip ++ fp)) (10 ^ fp.length)))
    | _ => none

/-- `^\d+,\d+` tested against the trimmed text (`looksLikeReading` in
`handleTX`): one or more digits, a comma, then at least one digit. -/
def looksLikeReading (s : Str) : Bool :=
  let t := trimStr s
  let ds := t.takeWhile isDigitC
  let r := t.dropWhile isDigitC
  !ds.isEmpty &&
    match r with
    | ',' :: c :: _ => isDigitC c
    | _ => false

/-- A sensor reading as built in `handleTX`:
`{ deviceTimestamp: Number(ts), intensity: Number(val), receivedAt: now }`.
Either numeric field may be `NaN` (`none`). -/
structure Reading where
  deviceTimestamp : JsNum
  intensity : JsNum
  receivedAt : ℤ
deriving DecidableEq, Repr

/-- One line of the reading-batch branch of `handleTX`
(`src/hooks/useBluetoothUART.js:345-357`): trim, split on `','`,
destructure the first two fields, skip the line when either is falsy
(`!ts || !val`), otherwise accept `Number` conversions of both. -/
def parseLine (now : ℤ) (line : Str) : Option Reading :=
  match (splitOnC ',' (trimStr line)).get? 1 with
  | none => none
  | some v =>
    if (splitOnC ',' (trimStr line)).headD [] = [] then none
    else if v = [] then none
    else some ⟨jsNumber ((splitOnC ',' (trimStr line)).headD []), jsNumber v, now⟩

/-- The whole reading-batch pipeline of `handleTX`: split the text on
newlines, map `parseLine` over the lines, drop the `null`s
(`.filter(Boolean)`). -/
def parseReadings (now : ℤ) (text : Str) : List Reading :=
  ((splitOnC '\n' text).map (parseLine now)).filterMap id

example : parseReadings 5 ("42,3.5".toList) =
    [⟨some 42, some (mkRat 7 2), 5⟩] := by decide

example : parseReadings 0 ("not,a,line".toList) =
    [⟨none, none, 0⟩] := by decide

example : parseLine 0 (",7".toList) = none := by decide

example : parseLine 0 ("12".toList) = none := by decide

example : looksLikeReading ("12,3 rest".toList) = true := by decide

example : looksLikeReading ("a12,3".toList) = false := by decide

/-- `pat` occurs as a contiguous substring of the second argument. -/
def containsStr (pat : Str) : Str → Bool
  | [] => pat.isPrefixOf []
  | c :: cs => pat.isPrefixOf (c :: cs) || containsStr pat cs

/-- The completion-sentinel test `/END|ERROR|CLEARED/i.test(text)`:
case-insensitive containment of `END`, `ERROR` or `CLEARED`. -/
def sentinelMatch (s : Str) : Bool :=
  let u := s.map Char.toUpper
  containsStr ("END".toList) u || containsStr ("ERROR".toList) u ||
    containsStr ("CLEARED".toList) u

example : sentinelMatch ("Cleared ok".toList) = true := by decide

example : sentinelMatch ("1,2END".toList) = true := by decide

example : sentinelMatch ("ready".toList) = false := by decide

/-- A free-text diagnostic line recorded by `handleTX`:
`{ timestamp: now, command: cmd, text: text.trim() }`. -/
structure StatusEntry where
  timestamp : ℤ
  command : Option Str
  text : Str
deriving DecidableEq, Repr

/-- The mutable state the hook threads through `sendCommand`,
the timeout callback and `handleTX`:
`activeCommandRef`, `rxCharRef` (is a write characteristic attached),
the armed deadline timers `(command, expiry)`, `sensorLogData` and
`statusLogData`. -/
structure HookState where
  active : Option Str
  rx : Bool
  timers : List (Str × ℤ)
  sensorLog : List Reading
  statusLog : List StatusEntry
deriving DecidableEq, Repr

/-- JS truthiness of `activeCommandRef.current` (`null` and `""` are
falsy): the guard `if (activeCommandRef.current) return` in
`sendCommand`. -/
def inFlight (a : Option Str) : Bool :=
  match a with
  | none => false
  | some s => !s.isEmpty

/-- `sendCommand(cmd)` (`src/hooks/useBluetoothUART.js:310-331`).
`now` is the host clock at the call, `writeOk` tells whether the
transport write succeeds.  Returns the new state and the list of
payloads successfully written to the write characteristic.
In this variant of the hook the deadline is 6000 ms for every command
(the earlier revision `src/unnamed/part_001:132` used 2000 ms for
`CLEAR`).  On write failure the `catch` clears the in-flight slot and
no deadline timer is armed (the `setTimeout` follows the `await`). -/
def sendCommand (s : HookState) (cmd : Str) (now : ℤ) (writeOk : Bool) :
    HookState × List Str :=
  if inFlight s.active then (s, [])
  else if !s.rx then (s, [])
  else if writeOk then
    ({ s with active := some cmd, timers := s.timers ++ [(cmd, now + 6000)] },
      [cmd ++ ['\n']])
  else
    ({ s with active := none }, [])

/-- The deadline callback armed by `sendCommand`: when it fires, the
slot is released only if the same command is still in flight; nothing
is written (no automatic retry). -/
def fireTimeout (s : HookState) (cmd : Str) : HookState × List Str :=
  if s.active = some cmd then ({ s with active := none }, []) else (s, [])

/-- The command names the hook itself issues. -/
def getCmd : Str := "GET".toList

def clearCmd : Str := "CLEAR".toList

def helloCmd : Str := "HELLO".toList

/-- Result of `handleTX`: the new state, the payloads written to the
transport, and the commands handed to `sendCommand` (the automatic
`CLEAR` chain). -/
structure TXOut where
  st : HookState
  writes : List Str
  issued : List Str
deriving DecidableEq, Repr

/-- `handleTX(text)` (`src/hooks/useBluetoothUART.js:338-379`), the
ordered line classifier: (1) if the in-flight command is `GET` or the
trimmed text starts like `<digits>,<digits>`, parse a reading batch and
stop when at least one reading was accepted; (2) otherwise a
completion-sentinel line releases the slot and — when the completed
command was not `CLEAR` — chains `clearLog()`, i.e. `sendCommand('CLEAR')`;
(3) otherwise the line is recorded as a status entry.
`readingBranch` is the reading-batch branch guard combined with its
"at least one reading accepted" early return. -/
def readingBranch (a : Option Str) (text : Str) (now : ℤ) : Bool :=
  (a = some getCmd || looksLikeReading text) &&
    !(parseReadings now text).isEmpty

/-- The classifier body; `writeOk` is the transport outcome for the
chained `CLEAR` write, when one happens. -/
def handleTX (s : HookState) (text : Str) (now : ℤ) (writeOk : Bool) : TXOut :=
  if readingBranch s.active text now then
    ⟨{ s with sensorLog := s.sensorLog ++ parseReadings now text }, [], []⟩
  else if sentinelMatch text then
    if s.active = some clearCmd then ⟨{ s with active := none }, [], []⟩
    else
      let r := sendCommand { s with active := none } clearCmd now writeOk
      ⟨r.1, r.2, [clearCmd]⟩
  else
    ⟨{ s with statusLog := s.statusLog ++ [⟨now, s.active, trimStr text⟩] }, [], []⟩

/-! ## Aggregation engine

JS float arithmetic is embedded over `JsNum = Option ℚ`: `none` models
`NaN` and propagates through `+`, `Math.max` and `/`; JS `>` is false
whenever an operand is `NaN`. -/

def jadd (a b : JsNum) : JsNum :=
  match a, b with
  | some x, some y => some (qAdd x y)
  | _, _ => none

def jmax2 (a b : JsNum) : JsNum :=
  match a, b with
  | some x, some y => some (max x y)
  | _, _ => none

/-- JS `r.intensity > max.intensity`: strict comparison, false on `NaN`. -/
def jgt (a b : JsNum) : Bool :=
  match a, b with
  | some x, some y => decide (y < x)
  | _, _ => false

/-- Division by the (positive, in every use) reading count. -/
def jdivN (a : JsNum) (n : ℕ) : JsNum := a.map (fun q => qDivN q n)

/-- `intensities.reduce((a, b) => a + b, 0)`. -/
def jsum (l : List JsNum) : JsNum := l.foldl jadd (some 0)

/-- `Math.max(...intensities)` on a non-empty list (the only way the
effect calls it). -/
def jmaxList (l : List JsNum) : JsNum :=
  match l with
  | [] => none
  | x :: xs => xs.foldl jmax2 x

/-- The derived `stats` object of the hook. -/
structure Stats where
  totalExposure : JsNum
  avgIntensity : JsNum
  maxIntensity : JsNum
  latestIntensity : JsNum
  numberReadings : ℕ
  peakTime : ℤ
deriving DecidableEq, Repr

/-- The reset value the effect installs when there is nothing to
aggregate: every field zero. -/
def zeroStats : Stats := ⟨some 0, some 0, some 0, some 0, 0, 0⟩

/-- `r.receivedAt >= startOfDay && r.receivedAt < startOfDay + 86400000`. -/
def inDayWindow (dayStart : ℤ) (r : Reading) : Bool :=
  decide (dayStart ≤ r.receivedAt) && decide (r.receivedAt < dayStart + 86400000)

/-- The `todayReadings` filter of the stats effect. -/
def todayFilter (dayStart : ℤ) (rs : List Reading) : List Reading :=
  rs.filter (inDayWindow dayStart)

/-- `todayReadings.reduce((max, r) => (r.intensity > max.intensity ? r : max),
todayReadings[0])` — JS `reduce` with an initial value visits every
element, including index 0. -/
def peakReading (t0 : Reading) (l : List Reading) : Reading :=
  l.foldl (fun m r => if jgt r.intensity m.intensity then r else m) t0

/-- The aggregation body of the stats effect, applied to a non-empty
reading list `t` (`todayReadings` in the source): the sum, the
average, `Math.max`, `intensities[intensities.length - 1]`, the count
and the `receivedAt` of the reduce-selected maximal reading. -/
def aggregate (t : List Reading) : Stats :=
  let ints := t.map (fun r => r.intensity)
  let total := jsum ints
  ⟨total, jdivN total ints.length, jmaxList ints,
    ints.getD (ints.length - 1) none, ints.length,
    (peakReading (t.headD ⟨none, none, 0⟩) t).receivedAt⟩

/-- The lifetime aggregation over a whole reading list: the body of the
stats effect without its `todayReadings` filter.  (This is also, for
its four fields, the computation of the earlier revision
`src/unnamed/part_001:71-84`, which aggregates the entire set.) -/
def computeLifetime (rs : List Reading) : Stats :=
  if rs = [] then zeroStats else aggregate rs

/-- The stats recompute effect (`src/hooks/useBluetoothUART.js:86-144`):
empty set → zero stats; otherwise restrict to the current local-day
window `[dayStart, dayStart + 86400000)`; empty restriction → zero
stats; otherwise aggregate over `todayReadings`.  `dayStart` stands for
`new Date(y, m, d).getTime()` at the moment the effect runs. -/
def computeStats (dayStart : ℤ) (rs : List Reading) : Stats :=
  if rs = [] then zeroStats
  else if todayFilter dayStart rs = [] then zeroStats
  else aggregate (todayFilter dayStart rs)

example :
    computeStats 0 [⟨some 1, some 1, 5⟩, ⟨some 2, some 3, 6⟩, ⟨some 3, some 2, 7⟩] =
      ⟨some (mkRat 6 1), some (mkRat 2 1), some 3, some 2, 3, 6⟩ := by decide

/-! ## Persistence store

The snapshot file `sensor_data.json` as the load effect discriminates
it: a bare JSON array is the legacy readings-only format, an object
carries optional `readings` and `stats` members. -/

inductive StoredData where
  | legacy (readings : List Reading)
  | snapshot (readings : Option (List Reading)) (stats : Option Stats)
deriving DecidableEq, Repr

/-- The backing store: `none` when the file does not exist. -/
abbrev Store := Option StoredData

/-- The persist effect (`src/hooks/useBluetoothUART.js:248-260`):
whole-snapshot rewrite of `{ readings, stats }`, ignoring what was
there before. -/
def saveData (rs : List Reading) (st : Stats) (_ : Store) : Store :=
  some (.snapshot (some rs) (some st))

/-- `clearSavedData` on the store: `FileSystem.deleteAsync(DATA_FILE)`. -/
def clearStore (_ : Store) : Store := none

/-- What the startup load effect leaves in memory, starting from the
initial empty reading set: `readings` is the loaded (or kept-empty)
set, `stats` is `some` exactly when a stats object was restored. -/
structure LoadResult where
  readings : List Reading
  stats : Option Stats
deriving DecidableEq, Repr

/-- The startup load effect (`src/hooks/useBluetoothUART.js:57-81`):
missing file → nothing loaded; bare array → legacy readings, no stats;
object → `readings` and `stats` extracted independently. -/
def loadData : Store → LoadResult
  | none => ⟨[], none⟩
  | some (.legacy rs) => ⟨rs, none⟩
  | some (.snapshot r st) => ⟨r.getD [], st⟩

/-! ## Frame reassembler

The notify-monitor loop (`src/hooks/useBluetoothUART.js:443-452`):
append the decoded chunk to `lineBufferRef`, then while the buffer
contains `'\n'`, emit the prefix before the first `'\n'` and keep the
suffix after it. -/

/-- `indexOf('\n')` + the two `slice`s: the prefix before the first
newline and the suffix after it, `none` when the buffer has no newline. -/
def breakNl : Str → Option (Str × Str)
  | [] => none
  | c :: cs =>
    if c = '\n' then some ([], cs)
    else
      match breakNl cs with
      | none => none
      | some (l, r) => some (c :: l, r)

theorem breakNl_none {s : Str} (h : breakNl s = none) : '\n' ∉ s := by
  induction s with
  | nil => simp
  | cons c cs ih =>
    simp only [breakNl] at h
    split at h
    · simp at h
    · rename_i hc
      cases hbn : breakNl cs with
      | none =>
        simp only [List.mem_cons, not_or]
        exact ⟨fun hh => hc hh.symm, ih hbn⟩
      | some p => rw [hbn] at h; cases p; simp at h

theorem breakNl_some {s l r : Str} (h : breakNl s = some (l, r)) :
    s = l ++ '\n' :: r ∧ '\n' ∉ l := by
  induction s generalizing l r with
  | nil => simp [breakNl] at h
  | cons c cs ih =>
    simp only [breakNl] at h
    split at h
    · rename_i hc
      rw [Option.some_inj] at h
      cases h
      subst hc
      simp
    · rename_i hc
      cases hbn : breakNl cs with
      | none => rw [hbn] at h; simp at h
      | some p =>
        obtain ⟨l', r'⟩ := p
        rw [hbn] at h
        simp only [Option.some_inj] at h
        cases h
        obtain ⟨h1, h2⟩ := ih hbn
        subst h1
        refine ⟨rfl, ?_⟩
        simp only [List.mem_cons, not_or]
        exact ⟨fun hh => hc hh.symm, h2⟩

theorem breakNl_len {s l r : Str} (h : breakNl s = some (l, r)) :
    r.length < s.length := by
  obtain ⟨h1, _⟩ := breakNl_some h
  subst h1
  simp
  omega

/-- The `while` loop: repeatedly split off complete lines, return them
together with the final (newline-free) buffer. -/
def drainBuf (s : Str) : List Str × Str :=
  match h : breakNl s with
  | none => ([], s)
  | some (l, r) =>
    have : r.length < s.length := breakNl_len h
    let p := drainBuf r
    (l :: p.1, p.2)
termination_by s.length

/-- One notify callback: append the chunk, drain complete lines. -/
def feedChunk (buf : Str) (chunk : Str) : List Str × Str :=
  drainBuf (buf ++ chunk)

/-- A whole sequence of notify callbacks starting from buffer `buf`:
all emitted lines in order, and the final buffer. -/
def feedAll (buf : Str) : List Str → List Str × Str
  | [] => ([], buf)
  | ch :: rest =>
    let p := feedChunk buf ch
    let q := feedAll p.2 rest
    (p.1 ++ q.1, q.2)

/-- Each emitted line rejoined with its newline delimiter. -/
def joinLines (ls : List Str) : Str := (ls.map (fun l => l ++ ['\n'])).flatten

theorem joinLines_append (a b : List Str) :
    joinLines (a ++ b) = joinLines a ++ joinLines b := by
  simp [joinLines]

theorem drainBuf_eq_none {s : Str} (h : breakNl s = none) :
    drainBuf s = ([], s) := by
  rw [drainBuf]
  split <;> simp_all

theorem drainBuf_eq_some {s l r : Str} (h : breakNl s = some (l, r)) :
    drainBuf s = (l :: (drainBuf r).1, (drainBuf r).2) := by
  rw [drainBuf]
  split <;> simp_all

/-- One drain pass loses nothing: the emitted lines, each rejoined with
its newline, followed by the kept buffer, reconstitute the input; and
the kept buffer holds no newline. -/
theorem drainBuf_spec (s : Str) :
    joinLines (drainBuf s).1 ++ (drainBuf s).2 = s ∧ '\n' ∉ (drainBuf s).2 := by
  induction s using drainBuf.induct with
  | case1 x hx =>
    rw [drainBuf_eq_none hx]
    exact ⟨by simp [joinLines], breakNl_none hx⟩
  | case2 x l r hx hlen ih =>
    rw [drainBuf_eq_some hx]
    obtain ⟨hx1, _⟩ := breakNl_some hx
    obtain ⟨ih1, ih2⟩ := ih
    refine ⟨?_, ih2⟩
    have : joinLines (l :: (drainBuf r).1) = (l ++ ['\n']) ++ joinLines (drainBuf r).1 := by
      simp [joinLines]
    rw [this, hx1, List.append_assoc, List.append_assoc, ih1]
    simp

theorem feedAll_rejoin (chunks : List Str) (buf : Str) :
    joinLines (feedAll buf chunks).1 ++ (feedAll buf chunks).2 =
      buf ++ chunks.flatten := by
  induction chunks generalizing buf with
  | nil => simp [feedAll, joinLines]
  | cons ch rest ih =>
    simp only [feedAll, feedChunk, List.flatten_cons]
    rw [joinLines_append, List.append_assoc, ih]
    obtain ⟨h1, _⟩ := drainBuf_spec (buf ++ ch)
    rw [← List.append_assoc, h1, List.append_assoc]

theorem feedAll_buffer_clean (chunks : List Str) (buf : Str)
    (hb : '\n' ∉ buf) : '\n' ∉ (feedAll buf chunks).2 := by
  induction chunks generalizing buf with
  | nil => simpa [feedAll]
  | cons ch rest ih =>
    simp only [feedAll, feedChunk]
    exact ih _ (drainBuf_spec (buf ++ ch)).2

/-! ## Claim theorems -/

/-- C1.  A call to `sendCommand` while a command is in flight (the
coordinator's own truthiness test of `activeCommandRef.current`) or
while no write characteristic is attached returns with the state —
in-flight command, armed deadlines, logs — unchanged and performs no
transport write; the single `Option`-valued slot of `HookState` keeps
at most one command in flight at every point. -/
theorem send_noop_when_busy (s : HookState) (cmd : Str) (now : ℤ)
    (writeOk : Bool) (h : inFlight s.active = true ∨ s.rx = false) :
    sendCommand s cmd now writeOk = (s, []) := by
  unfold sendCommand
  rcases h with h | h
  · simp [h]
  · by_cases hif : inFlight s.active <;> simp [hif, h]

theorem send_noop_when_busy_witness :
    (inFlight (HookState.active ⟨some ("GET".toList), true, [], [], []⟩) = true ∨
      (⟨some ("GET".toList), true, [], [], []⟩ : HookState).rx = false) ∧
    sendCommand ⟨some ("GET".toList), true, [], [], []⟩ ("HELLO".toList) 0 true =
      (⟨some ("GET".toList), true, [], [], []⟩, []) :=
  ⟨Or.inl (by decide),
    send_noop_when_busy ⟨some ("GET".toList), true, [], [], []⟩ ("HELLO".toList) 0 true
      (Or.inl (by decide))⟩

/-- C9.  When the transport write inside `sendCommand` throws, the
`catch` clears the in-flight slot at once, so the failed command never
stays in flight and a later `sendCommand` on the same state goes
through and writes. -/
theorem send_write_failure_releases (s : HookState) (cmd : Str) (now : ℤ)
    (h1 : inFlight s.active = false) (h2 : s.rx = true) :
    (sendCommand s cmd now false).1.active = none ∧
    (sendCommand s cmd now false).1.rx = true ∧
    ∀ (cmd2 : Str) (now2 : ℤ),
      (sendCommand (sendCommand s cmd now false).1 cmd2 now2 true).2 =
        [cmd2 ++ ['\n']] := by
  have hs : sendCommand s cmd now false = ({ s with active := none }, []) := by
    unfold sendCommand
    rw [h1]
    simp [h2]
  rw [hs]
  refine ⟨rfl, by simp [h2], fun cmd2 now2 => ?_⟩
  unfold sendCommand
  simp [inFlight, h2]

theorem send_write_failure_releases_witness :
    inFlight (HookState.active ⟨none, true, [], [], []⟩) = false ∧
    (⟨none, true, [], [], []⟩ : HookState).rx = true ∧
    (sendCommand ⟨none, true, [], [], []⟩ ("GET".toList) 0 false).1.active = none ∧
    (sendCommand (sendCommand ⟨none, true, [], [], []⟩ ("GET".toList) 0 false).1
        ("GET".toList) 7 true).2 = ["GET\n".toList] :=
  ⟨by decide, by decide,
    (send_write_failure_releases ⟨none, true, [], [], []⟩ ("GET".toList) 0
        (by decide) (by decide)).1,
    (send_write_failure_releases ⟨none, true, [], [], []⟩ ("GET".toList) 0
        (by decide) (by decide)).2.2 ("GET".toList) 7⟩

/-- C5.  Feeding any sequence of chunks into the notify-monitor
reassembler from its initial empty buffer: the emitted lines, each
rejoined with its newline delimiter, followed by the retained buffer,
equal the concatenation of all chunks; and the retained buffer is
exactly the trailing partial line (it contains no newline).  No partial
data is dropped across calls. -/
theorem frame_reassembler_rejoin (chunks : List Str) :
    joinLines (feedAll [] chunks).1 ++ (feedAll [] chunks).2 = chunks.flatten ∧
    (feedAll [] chunks).2.contains '\n' = false := by
  refine ⟨by simpa using feedAll_rejoin chunks [], ?_⟩
  have h := feedAll_buffer_clean chunks [] (by simp)
  simpa using h

/-- C6.  The recomputed stats satisfy the spec invariant: on the empty
reading set every field is zero, and whenever `numberReadings > 0` the
average equals `totalExposure / numberReadings` (the model's exact
rational division `jdivN`). -/
theorem stats_invariant :
    (∀ dayStart : ℤ,
      computeStats dayStart [] = ⟨some 0, some 0, some 0, some 0, 0, 0⟩) ∧
    ∀ (dayStart : ℤ) (rs : List Reading),
      0 < (computeStats dayStart rs).numberReadings →
      (computeStats dayStart rs).avgIntensity =
        jdivN (computeStats dayStart rs).totalExposure
          (computeStats dayStart rs).numberReadings := by
  refine ⟨fun _ => rfl, fun d rs h => ?_⟩
  by_cases h1 : rs = []
  · simp [computeStats, h1, zeroStats] at h
  · by_cases h2 : todayFilter d rs = []
    · simp [computeStats, h1, h2, zeroStats] at h
    · simp only [computeStats, h1, h2, if_false, if_neg]
      rfl

theorem stats_invariant_witness :
    0 < (computeStats 0 [⟨some 1, some 2, 5⟩]).numberReadings ∧
    (computeStats 0 [⟨some 1, some 2, 5⟩]).avgIntensity =
      jdivN (computeStats 0 [⟨some 1, some 2, 5⟩]).totalExposure
        (computeStats 0 [⟨some 1, some 2, 5⟩]).numberReadings :=
  ⟨by decide, stats_invariant.2 0 [⟨some 1, some 2, 5⟩] (by decide)⟩

/-- C8.  Persistence round-trips: a save followed by a load restores
the same readings and stats; a legacy bare-array snapshot loads as
readings with no stats; a clear followed by a load yields the empty
reading set (and no stats). -/
theorem persistence_roundtrip :
    (∀ (rs : List Reading) (st : Stats) (store : Store),
      loadData (saveData rs st store) = ⟨rs, some st⟩) ∧
    (∀ rs : List Reading, loadData (some (.legacy rs)) = ⟨rs, none⟩) ∧
    ∀ store : Store, loadData (clearStore store) = ⟨[], none⟩ :=
  ⟨fun _ _ _ => rfl, fun _ => rfl, fun _ => rfl⟩

/-- C10.  Every reading accepted from one incoming line carries the
same `receivedAt`: the single `now = Date.now()` captured at the top of
`handleTX`, before the text is split or parsed. -/
theorem batch_single_timestamp (now : ℤ) (text : Str) (r : Reading)
    (h : r ∈ parseReadings now text) : r.receivedAt = now := by
  unfold parseReadings at h
  rw [List.mem_filterMap] at h
  obtain ⟨o, ho, hr⟩ := h
  rw [List.mem_map] at ho
  obtain ⟨l, _, hl⟩ := ho
  simp only [id] at hr
  subst hl
  simp only [parseLine] at hr
  split at hr
  · simp at hr
  · split at hr
    · simp at hr
    · split at hr
      · simp at hr
      · rw [Option.some_inj] at hr
        rw [← hr]

theorem batch_single_timestamp_witness :
    (⟨some 42, some (mkRat 7 2), 5⟩ : Reading) ∈ parseReadings 5 ("42,3.5".toList) ∧
    (⟨some 42, some (mkRat 7 2), 5⟩ : Reading).receivedAt = 5 :=
  ⟨by decide, batch_single_timestamp 5 ("42,3.5".toList) _ (by decide)⟩

/-- C7 counterexample.  From the idle connected state, sending `CLEAR`
at `now = 0` arms a deadline of 6000 ms, not the 2000 ms the claim
states for `CLEAR` (the 2000 ms special case exists only in the earlier
revision `src/unnamed/part_001:132`). -/
theorem clear_timeout_counterexample :
    (sendCommand ⟨none, true, [], [], []⟩ ("CLEAR".toList) 0 true).1.timers =
      [(("CLEAR".toList), 6000)] ∧
    decide ((6000 : ℤ) = 0 + 2000) = false := by
  exact ⟨by decide, by decide⟩

/-- C7 amended.  Every successful `sendCommand` — `CLEAR` included —
arms a 6000 ms deadline; when the deadline fires while that command is
still in flight the slot is released with no write (no automatic
retry), and it does nothing when the command is no longer the in-flight
one. -/
theorem timeout_six_seconds (s : HookState) (cmd : Str) (now : ℤ)
    (h1 : inFlight s.active = false) (h2 : s.rx = true) :
    (sendCommand s cmd now true).1.timers = s.timers ++ [(cmd, now + 6000)] ∧
    (sendCommand s cmd now true).1.active = some cmd ∧
    (∀ s2 : HookState, s2.active = some cmd →
      fireTimeout s2 cmd = ({ s2 with active := none }, [])) ∧
    ∀ s2 : HookState, s2.active ≠ some cmd → fireTimeout s2 cmd = (s2, []) := by
  have hs : sendCommand s cmd now true =
      ({ s with active := some cmd, timers := s.timers ++ [(cmd, now + 6000)] },
        [cmd ++ ['\n']]) := by
    unfold sendCommand
    rw [h1]
    simp [h2]
  rw [hs]
  refine ⟨rfl, rfl, fun s2 hs2 => ?_, fun s2 hs2 => ?_⟩
  · unfold fireTimeout
    simp [hs2]
  · unfold fireTimeout
    simp [hs2]

theorem timeout_six_seconds_witness :
    inFlight (HookState.active ⟨none, true, [], [], []⟩) = false ∧
    (sendCommand ⟨none, true, [], [], []⟩ ("CLEAR".toList) 0 true).1.timers =
      [(("CLEAR".toList), 0 + 6000)] ∧
    fireTimeout ⟨some ("CLEAR".toList), true, [], [], []⟩ ("CLEAR".toList) =
      (⟨none, true, [], [], []⟩, []) :=
  ⟨by decide,
    by
      have h := (timeout_six_seconds ⟨none, true, [], [], []⟩ ("CLEAR".toList) 0
        (by decide) (by decide)).1
      simpa using h,
    by
      have h := (timeout_six_seconds ⟨none, true, [], [], []⟩ ("CLEAR".toList) 0
        (by decide) (by decide)).2.2.1 ⟨some ("CLEAR".toList), true, [], [], []⟩ rfl
      simpa using h⟩

/-- C3 counterexample.  With `GET` in flight, the line `"1,2END"`
matches the completion-sentinel pattern, yet the reading branch accepts
`(1, NaN)` and returns first: the slot is not released and no `CLEAR`
is chained. -/
theorem sentinel_chain_counterexample :
    sentinelMatch ("1,2END".toList) = true ∧
    (handleTX ⟨some ("GET".toList), true, [], [], []⟩ ("1,2END".toList) 0 true).st.active =
      some ("GET".toList) ∧
    (handleTX ⟨some ("GET".toList), true, [], [], []⟩ ("1,2END".toList) 0 true).issued =
      [] := by
  exact ⟨by decide, by decide, by decide⟩

/-- C3 amended.  For a line that reaches the sentinel check (it is not
consumed by the reading branch) and matches the sentinel pattern while
a non-`CLEAR` command is in flight, the slot stops holding that command
and exactly one automatic `CLEAR` is handed to `sendCommand` (and is
written out whenever the write characteristic is attached and the write
succeeds); a sentinel completing an in-flight `CLEAR` releases the slot
and chains nothing. -/
theorem sentinel_completion_chain :
    (∀ (s : HookState) (text : Str) (now : ℤ) (ok : Bool) (c : Str),
      s.active = some c → c ≠ clearCmd →
      sentinelMatch text = true →
      readingBranch s.active text now = false →
      (handleTX s text now ok).issued = [clearCmd] ∧
      (handleTX s text now ok).st.active ≠ some c ∧
      (s.rx = true → ok = true →
        (handleTX s text now ok).writes = [clearCmd ++ ['\n']])) ∧
    ∀ (s : HookState) (text : Str) (now : ℤ) (ok : Bool),
      s.active = some clearCmd →
      sentinelMatch text = true →
      readingBranch s.active text now = false →
      (handleTX s text now ok).issued = [] ∧
      (handleTX s text now ok).st.active = none ∧
      (handleTX s text now ok).writes = [] := by
  constructor
  · intro s text now ok c hc hne hsent hrb
    have hcl : ¬(s.active = some clearCmd) := by
      rw [hc]
      exact fun h => hne (Option.some_inj.mp h)
    have hT : handleTX s text now ok =
        ⟨(sendCommand { s with active := none } clearCmd now ok).1,
          (sendCommand { s with active := none } clearCmd now ok).2, [clearCmd]⟩ := by
      unfold handleTX
      rw [hrb, hsent]
      simp only [Bool.false_eq_true, if_false, if_true]
      rw [if_neg hcl]
    rw [hT]
    refine ⟨rfl, ?_, fun hrx hok => ?_⟩
    · unfold sendCommand
      by_cases hr : s.rx
      · cases ok
        · simp [inFlight, hr]
        · simp only [inFlight, List.isEmpty_nil]
          simp [hr]
          exact fun h => hne h.symm
      · simp [inFlight, hr]
    · unfold sendCommand
      simp [inFlight, hrx, hok]
  · intro s text now ok hc hsent hrb
    have hT : handleTX s text now ok = ⟨{ s with active := none }, [], []⟩ := by
      unfold handleTX
      rw [hrb, hsent]
      simp only [Bool.false_eq_true, if_false, if_true]
      rw [if_pos hc]
    rw [hT]
    exact ⟨rfl, rfl, rfl⟩

theorem sentinel_completion_chain_witness :
    (HookState.active ⟨some getCmd, true, [], [], []⟩ = some getCmd) ∧
    sentinelMatch ("END".toList) = true ∧
    readingBranch (some getCmd) ("END".toList) 0 = false ∧
    (handleTX ⟨some getCmd, true, [], [], []⟩ ("END".toList) 0 true).issued =
      [clearCmd] ∧
    (handleTX ⟨some getCmd, true, [], [], []⟩ ("END".toList) 0 true).writes =
      [clearCmd ++ ['\n']] := by
  have h := sentinel_completion_chain.1 ⟨some getCmd, true, [], [], []⟩
    ("END".toList) 0 true getCmd rfl (by decide) (by decide) (by decide)
  exact ⟨rfl, by decide, by decide, h.1, h.2.2 rfl rfl⟩

/-- C4 counterexample.  The line `"not,a,line"` has no field that
parses as a number (`Number` gives `NaN` on both), yet `handleTX`'s
parser accepts it as a reading `(NaN, NaN)` instead of skipping it: the
earlier revision's `isNaN` rejection (`src/unnamed/part_001:162`) is
absent from this variant. -/
theorem parser_accepts_nan_counterexample :
    parseLine 0 ("not,a,line".toList) = some ⟨none, none, 0⟩ ∧
    jsNumber ("not".toList) = none ∧
    jsNumber ("a".toList) = none := by
  exact ⟨by decide, by decide, by decide⟩

/-- C4 amended.  A line is accepted as a reading iff its first two
comma-separated fields (of the trimmed line) are present and non-empty
— the stored `Number` conversions may be `NaN`; a line that is not
accepted is skipped silently and the rest of the batch is still parsed
(no abort, no error). -/
theorem reading_line_acceptance :
    (∀ (now : ℤ) (line : Str),
      (parseLine now line).isSome = true ↔
        ((splitOnC ',' (trimStr line)).headD [] ≠ [] ∧
          ∃ v, (splitOnC ',' (trimStr line)).get? 1 = some v ∧ v ≠ [])) ∧
    ∀ (now : ℤ) (pre post : List Str) (bad : Str),
      parseLine now bad = none →
      ((pre ++ bad :: post).map (parseLine now)).filterMap id =
        (pre.map (parseLine now)).filterMap id ++
          (post.map (parseLine now)).filterMap id := by
  constructor
  · intro now line
    constructor
    · intro h
      unfold parseLine at h
      split at h
      · simp at h
      · rename_i v hv
        split at h
        · simp at h
        · split at h
          · simp at h
          · rename_i h1 h2
            exact ⟨h1, v, hv, h2⟩
    · rintro ⟨h1, v, hv, h2⟩
      unfold parseLine
      rw [hv]
      simp only [if_neg h1, if_neg h2, Option.isSome_some]
  · intro now pre post bad hbad
    simp [hbad]

/-- C2 counterexample.  A single retained reading received outside the
current local-day window is dropped by the stats effect: it reports
`numberReadings = 0` although the whole retained set has one element,
so the stats are not lifetime aggregates over the entire set. -/
theorem stats_not_lifetime_counterexample :
    ([(⟨some 1, some 5, 86400000⟩ : Reading)] : List Reading).length = 1 ∧
    (computeStats 0 [⟨some 1, some 5, 86400000⟩]).numberReadings = 0 ∧
    decide ((computeStats 0 [⟨some 1, some 5, 86400000⟩]).numberReadings =
      ([(⟨some 1, some 5, 86400000⟩ : Reading)] : List Reading).length) = false := by
  exact ⟨by decide, by decide, by decide⟩

theorem reading_line_acceptance_witness :
    parseLine 0 ("onlyonefield".toList) = none ∧
    ((["1,2".toList] ++ ("onlyonefield".toList) :: ["3,4".toList]).map
        (parseLine 0)).filterMap id =
      (["1,2".toList].map (parseLine 0)).filterMap id ++
        (["3,4".toList].map (parseLine 0)).filterMap id :=
  ⟨by decide,
    reading_line_acceptance.2 0 ["1,2".toList] ["3,4".toList]
      ("onlyonefield".toList) (by decide)⟩

/-! ### Support lemmas for the aggregation characterization -/

theorem jgt_some_true {x y : ℚ} : jgt (some x) (some y) = true ↔ y < x := by
  simp [jgt]

theorem jgt_some_false {x y : ℚ} : jgt (some x) (some y) = false ↔ x ≤ y := by
  simp [jgt]

theorem jgt_self_false (a : JsNum) : jgt a a = false := by
  cases a with
  | none => rfl
  | some x => simp [jgt]

/-- The JS `reduce` with initial value `t[0]` visits `t[0]` again first,
which changes nothing. -/
theorem peakReading_cons_self (x : Reading) (xs : List Reading) :
    peakReading x (x :: xs) = peakReading x xs := by
  simp [peakReading, List.foldl_cons, jgt_self_false]

theorem jsum_map_some (qs : List ℚ) :
    ∀ acc : ℚ, (qs.map some).foldl jadd (some acc) = some (acc + qs.sum) := by
  induction qs with
  | nil => intro acc; simp
  | cons q qs ih =>
    intro acc
    simp only [List.map_cons, List.foldl_cons, jadd]
    rw [qAdd_eq_add, ih (acc + q)]
    simp [add_assoc]

theorem jmax_foldl_some (qs : List ℚ) :
    ∀ a : ℚ, (qs.map some).foldl jmax2 (some a) = some (qs.foldl max a) := by
  induction qs with
  | nil => intro a; rfl
  | cons q qs ih =>
    intro a
    simp only [List.map_cons, List.foldl_cons, jmax2]
    exact ih (max a q)

theorem foldl_max_init_le (qs : List ℚ) : ∀ a : ℚ, a ≤ qs.foldl max a := by
  induction qs with
  | nil => intro a; simp
  | cons q qs ih =>
    intro a
    exact le_trans (le_max_left a q) (ih (max a q))

theorem foldl_max_mem_le (qs : List ℚ) :
    ∀ a q : ℚ, q ∈ qs → q ≤ qs.foldl max a := by
  induction qs with
  | nil => intro a q h; simp at h
  | cons x xs ih =>
    intro a q h
    rcases List.mem_cons.mp h with rfl | h
    · exact le_trans (le_max_right a q) (foldl_max_init_le xs (max a q))
    · exact ih (max a x) q h

theorem foldl_max_choice (qs : List ℚ) :
    ∀ a : ℚ, qs.foldl max a = a ∨ qs.foldl max a ∈ qs := by
  induction qs with
  | nil => intro a; exact Or.inl rfl
  | cons x xs ih =>
    intro a
    rw [List.foldl_cons]
    rcases ih (max a x) with h | h
    · rcases max_choice a x with hm | hm
      · exact Or.inl (by rw [h, hm])
      · exact Or.inr (by rw [h, hm]; exact List.mem_cons_self x xs)
    · exact Or.inr (List.mem_cons_of_mem x h)

theorem getD_length_sub_one {α : Type} (l : List α) (hl : l ≠ []) (d : α) :
    l.getD (l.length - 1) d = l.getLast hl := by
  have hlen : l.length - 1 < l.length := Nat.sub_lt (List.length_pos.mpr hl) one_pos
  rw [List.getD_eq_getElem?_getD, List.getElem?_eq_getElem hlen]
  rw [List.getLast_eq_getElem]
  rfl

/-- Every intensity in the list is a number (not `NaN`). -/
def allNumeric (l : List Reading) : Prop :=
  ∀ r ∈ l, (r.intensity).isSome = true

/-- The fold `peakReading` returns the first reading attaining the
maximal intensity: the list splits around the result, every reading
before it is strictly below it, and nothing in the list exceeds it. -/
theorem peakReading_first_max (l : List Reading) :
    ∀ t0 : Reading, allNumeric (t0 :: l) →
      ∃ l1 l2, t0 :: l = l1 ++ peakReading t0 l :: l2 ∧
        (∀ x ∈ l1, jgt (peakReading t0 l).intensity x.intensity = true) ∧
        ∀ x ∈ t0 :: l, jgt x.intensity (peakReading t0 l).intensity = false := by
  induction l with
  | nil =>
    intro t0 _
    refine ⟨[], [], rfl, by simp, ?_⟩
    intro x hx
    rw [List.mem_singleton] at hx
    subst hx
    exact jgt_self_false _
  | cons r rs ih =>
    intro t0 hn
    have hfold : peakReading t0 (r :: rs) =
        peakReading (if jgt r.intensity t0.intensity then r else t0) rs := rfl
    obtain ⟨qt, hqt⟩ := Option.isSome_iff_exists.mp (hn t0 (List.mem_cons_self _ _))
    obtain ⟨qr, hqr⟩ := Option.isSome_iff_exists.mp
      (hn r (List.mem_cons_of_mem _ (List.mem_cons_self _ _)))
    cases hj : jgt r.intensity t0.intensity with
    | true =>
      rw [hfold, if_pos hj]
      have hn' : allNumeric (r :: rs) := fun x hx =>
        hn x (List.mem_cons_of_mem _ hx)
      obtain ⟨l1, l2, heq, hlt, hub⟩ := ih r hn'
      have hpmem : peakReading r rs ∈ r :: rs := by
        rw [heq]
        exact List.mem_append_right _ (List.mem_cons_self _ _)
      obtain ⟨qp, hqp⟩ := Option.isSome_iff_exists.mp (hn' _ hpmem)
      have h1 : qt < qr := by
        rw [hqr, hqt] at hj
        exact jgt_some_true.mp hj
      have h2 : qr ≤ qp := by
        have hh := hub r (List.mem_cons_self _ _)
        rw [hqr, hqp] at hh
        exact jgt_some_false.mp hh
      refine ⟨t0 :: l1, l2, ?_, ?_, ?_⟩
      · rw [List.cons_append, ← heq]
      · intro x hx
        rcases List.mem_cons.mp hx with rfl | hx
        · rw [hqp, hqt]
          exact jgt_some_true.mpr (lt_of_lt_of_le h1 h2)
        · exact hlt x hx
      · intro x hx
        rcases List.mem_cons.mp hx with rfl | hx
        · rw [hqt, hqp]
          exact jgt_some_false.mpr (le_of_lt (lt_of_lt_of_le h1 h2))
        · exact hub x hx
    | false =>
      rw [hfold, if_neg (by simp [hj])]
      have hr_le : qr ≤ qt := by
        rw [hqr, hqt] at hj
        exact jgt_some_false.mp hj
      have hn' : allNumeric (t0 :: rs) := by
        intro x hx
        rcases List.mem_cons.mp hx with rfl | hx
        · exact hn x (List.mem_cons_self _ _)
        · exact hn x (List.mem_cons_of_mem _ (List.mem_cons_of_mem _ hx))
      obtain ⟨l1, l2, heq, hlt, hub⟩ := ih t0 hn'
      have hpmem : peakReading t0 rs ∈ t0 :: rs := by
        rw [heq]
        exact List.mem_append_right _ (List.mem_cons_self _ _)
      obtain ⟨qp, hqp⟩ := Option.isSome_iff_exists.mp (hn' _ hpmem)
      cases l1 with
      | nil =>
        rw [List.nil_append] at heq
        injection heq with he1 he2
        refine ⟨[], r :: rs, ?_, by simp, ?_⟩
        · rw [List.nil_append, ← he1]
        · intro x hx
          rcases List.mem_cons.mp hx with rfl | hx
          · exact hub x (List.mem_cons_self _ _)
          rcases List.mem_cons.mp hx with rfl | hx
          · rw [← he1]
            exact hj
          · exact hub x (List.mem_cons_of_mem _ hx)
      | cons a l1' =>
        rw [List.cons_append] at heq
        injection heq with he1 he2
        have ht0lt : jgt (peakReading t0 rs).intensity t0.intensity = true := by
          apply hlt
          rw [he1]
          exact List.mem_cons_self _ _
        have hq_t0_lt : qt < qp := by
          rw [hqt, hqp] at ht0lt
          exact jgt_some_true.mp ht0lt
        refine ⟨t0 :: r :: l1', l2, ?_, ?_, ?_⟩
        · rw [List.cons_append, List.cons_append, ← he2]
        · intro x hx
          rcases List.mem_cons.mp hx with rfl | hx
          · rw [hqp, hqt]
            exact jgt_some_true.mpr hq_t0_lt
          rcases List.mem_cons.mp hx with rfl | hx
          · rw [hqp, hqr]
            exact jgt_some_true.mpr (lt_of_le_of_lt hr_le hq_t0_lt)
          · exact hlt x (List.mem_cons_of_mem _ hx)
        · intro x hx
          rcases List.mem_cons.mp hx with rfl | hx
          · exact hub x (List.mem_cons_self _ _)
          rcases List.mem_cons.mp hx with rfl | hx
          · rw [hqr, hqp]
            exact jgt_some_false.mpr (le_of_lt (lt_of_le_of_lt hr_le hq_t0_lt))
          · exact hub x (List.mem_cons_of_mem _ hx)

/-- C2 amended (scope corrected).  The stats effect equals the lifetime
aggregation applied to the day-filtered subset of the retained set, not
to the whole set; and on a non-empty subset whose intensities are the
numbers `qs`, the aggregation computes exactly the claimed fields:
`numberReadings` is the subset size, `totalExposure` the sum of `qs`,
`maxIntensity` their maximum, `latestIntensity` the intensity of the
last (most recently appended) element, and `peakTime` the `receivedAt`
of the first element attaining the maximal intensity (everything
before it is strictly below the peak). -/
theorem stats_day_scoped :
    (∀ (dayStart : ℤ) (rs : List Reading),
      computeStats dayStart rs = computeLifetime (todayFilter dayStart rs)) ∧
    ∀ (l : List Reading) (qs : List ℚ) (hl : l ≠ []),
      l.map (fun r => r.intensity) = qs.map some →
      (computeLifetime l).numberReadings = l.length ∧
      (computeLifetime l).totalExposure = some qs.sum ∧
      (∃ m, (computeLifetime l).maxIntensity = some m ∧ m ∈ qs ∧
        ∀ q ∈ qs, q ≤ m) ∧
      (computeLifetime l).latestIntensity = (l.getLast hl).intensity ∧
      ∃ l1 p l2, l = l1 ++ p :: l2 ∧
        (computeLifetime l).peakTime = p.receivedAt ∧
        p.intensity = (computeLifetime l).maxIntensity ∧
        ∀ x ∈ l1, jgt p.intensity x.intensity = true := by
  constructor
  · intro d rs
    by_cases h1 : rs = []
    · subst h1
      rfl
    · unfold computeStats computeLifetime
      rw [if_neg h1]
  · intro l qs hl hmap
    have hne : l.map (fun r => r.intensity) ≠ [] := by simpa using hl
    have hqs_ne : qs ≠ [] := by
      intro h
      subst h
      simp only [List.map_nil, List.map_eq_nil_iff] at hmap
      exact hl hmap
    have hcl : computeLifetime l = aggregate l := by
      unfold computeLifetime
      rw [if_neg hl]
    have hnum : allNumeric l := by
      intro r hr
      have hmem : r.intensity ∈ l.map (fun r => r.intensity) :=
        List.mem_map_of_mem _ hr
      rw [hmap] at hmem
      obtain ⟨q, _, hq⟩ := List.mem_map.mp hmem
      rw [← hq]
      rfl
    have hq_of_mem : ∀ q ∈ qs, ∃ r ∈ l, r.intensity = some q := by
      intro q hq
      have hmem : some q ∈ l.map (fun r => r.intensity) := by
        rw [hmap]
        exact List.mem_map_of_mem _ hq
      obtain ⟨r, hr, hrq⟩ := List.mem_map.mp hmem
      exact ⟨r, hr, hrq⟩
    have hq_of_r : ∀ r ∈ l, ∀ q, r.intensity = some q → q ∈ qs := by
      intro r hr q hq
      have hmem : r.intensity ∈ l.map (fun r => r.intensity) :=
        List.mem_map_of_mem _ hr
      rw [hmap, hq] at hmem
      obtain ⟨q2, hq2, he⟩ := List.mem_map.mp hmem
      rw [Option.some_inj.mp he] at hq2
      exact hq2
    obtain ⟨q0, qs', rfl⟩ : ∃ q0 qs', qs = q0 :: qs' := by
      cases qs with
      | nil => exact absurd rfl hqs_ne
      | cons a b => exact ⟨a, b, rfl⟩
    have hmaxv : (computeLifetime l).maxIntensity = some (qs'.foldl max q0) := by
      rw [hcl]
      show jmaxList (l.map (fun r => r.intensity)) = _
      rw [hmap]
      simp only [List.map_cons, jmaxList]
      exact jmax_foldl_some qs' q0
    have hmax_mem : qs'.foldl max q0 ∈ q0 :: qs' := by
      rcases foldl_max_choice qs' q0 with h | h
      · rw [h]
        exact List.mem_cons_self _ _
      · exact List.mem_cons_of_mem _ h
    have hmax_ub : ∀ q ∈ q0 :: qs', q ≤ qs'.foldl max q0 := by
      intro q hq
      rcases List.mem_cons.mp hq with rfl | hq
      · exact foldl_max_init_le qs' q
      · exact foldl_max_mem_le qs' q0 q hq
    refine ⟨?_, ?_, ⟨qs'.foldl max q0, hmaxv, hmax_mem, hmax_ub⟩, ?_, ?_⟩
    · rw [hcl]
      show (l.map (fun r => r.intensity)).length = l.length
      exact List.length_map _ _
    · rw [hcl]
      show jsum (l.map (fun r => r.intensity)) = _
      rw [hmap]
      unfold jsum
      rw [jsum_map_some]
      rw [zero_add]
    · rw [hcl]
      show (l.map (fun r => r.intensity)).getD
        ((l.map (fun r => r.intensity)).length - 1) none = _
      rw [getD_length_sub_one _ hne none]
      refine Option.some_inj.mp ?_
      rw [← List.getLast?_eq_getLast_of_ne_nil hne,
        List.getLast?_map, List.getLast?_eq_getLast_of_ne_nil hl]
      rfl
    · obtain ⟨x, xs, rfl⟩ : ∃ x xs, l = x :: xs := by
        cases l with
        | nil => exact absurd rfl hl
        | cons a b => exact ⟨a, b, rfl⟩
      obtain ⟨l1, l2, heq, hlt, hub⟩ := peakReading_first_max xs x hnum
      refine ⟨l1, peakReading x xs, l2, heq, ?_, ?_, hlt⟩
      · rw [hcl]
        show (peakReading ((x :: xs).headD ⟨none, none, 0⟩) (x :: xs)).receivedAt = _
        rw [show (x :: xs).headD ⟨none, none, 0⟩ = x from rfl,
          peakReading_cons_self]
      · have hpmem : peakReading x xs ∈ x :: xs := by
          rw [heq]
          exact List.mem_append_right _ (List.mem_cons_self _ _)
        obtain ⟨qp, hqp⟩ := Option.isSome_iff_exists.mp (hnum _ hpmem)
        have hqp_mem : qp ∈ q0 :: qs' := hq_of_r _ hpmem qp hqp
        have hqp_le : qp ≤ qs'.foldl max q0 := hmax_ub qp hqp_mem
        have hle_qp : qs'.foldl max q0 ≤ qp := by
          obtain ⟨r, hr, hrq⟩ := hq_of_mem _ hmax_mem
          have hb := hub r hr
          rw [hrq, hqp] at hb
          exact jgt_some_false.mp hb
        rw [hmaxv, hqp]
        exact congrArg some (le_antisymm hqp_le hle_qp)

theorem stats_day_scoped_witness :
    computeStats 0
        [⟨some 1, some 1, 5⟩, ⟨some 2, some 3, 6⟩, ⟨some 3, some 2, 7⟩] =
      computeLifetime (todayFilter 0
        [⟨some 1, some 1, 5⟩, ⟨some 2, some 3, 6⟩, ⟨some 3, some 2, 7⟩]) ∧
    (computeLifetime
        [⟨some 1, some 1, 5⟩, ⟨some 2, some 3, 6⟩, ⟨some 3, some 2, 7⟩]).totalExposure =
      some (([1, 3, 2] : List ℚ).sum) :=
  ⟨stats_day_scoped.1 0 _,
    (stats_day_scoped.2
      [⟨some 1, some 1, 5⟩, ⟨some 2, some 3, 6⟩, ⟨some 3, some 2, 7⟩]
      [1, 3, 2] (by decide) (by decide)).2.1⟩

end CarotUART
